import Mathlib

/-!
# Verification of `immutable-cpf` (`src/unnamed/part_003`, the current `CPF` class)

Shallow embedding of the `CPF` value object: construction, indexed access and
replacement, equality, checksum validation, serialization and parsing.

JavaScript numbers that flow into the constructor are modelled by `JSNum`:
a finite number is a rational (every finite double is a rational and the only
operations applied to it, `Math.trunc` and `% 10`, are exact), and the
non-finite values `NaN`, `Infinity`, `-Infinity` are separate constructors.
`Math.trunc(v) % 10` is modelled by `JSNum.truncMod10`, returning `none` for
the `NaN` result (trunc of a non-finite value is non-finite, and `x % 10` of a
non-finite value is `NaN`).  JavaScript's `%` on integers keeps the sign of the
dividend, which is `Int.tmod`; `Math.trunc` rounds toward zero, which on a
rational `q` is `q.num.tdiv q.den`.  JavaScript's `-0` is identified with `0`:
every observation the class makes of a stored digit (`===` comparison, `join`,
arithmetic) cannot distinguish them.
-/

/-- A JavaScript number as seen by the `CPF` constructor. -/
inductive JSNum where
  | finite : ℚ → JSNum
  | nan : JSNum
  | posInf : JSNum
  | negInf : JSNum
deriving DecidableEq

/-- `Math.trunc` on a finite value: rounding toward zero. -/
def ratTrunc (q : ℚ) : ℤ :=
  q.num.tdiv q.den

/-- `Math.trunc(v) % 10` for a JavaScript number `v`; `none` is `NaN`. -/
def JSNum.truncMod10 : JSNum → Option ℤ
  | JSNum.finite q => some ((ratTrunc q).tmod 10)
  | _ => none

/-- Embed an integer as the JavaScript number of the same value. -/
def JSNum.ofInt (n : ℤ) : JSNum :=
  JSNum.finite (n : ℚ)

/-- Embed a natural digit as a JavaScript number. -/
def JSNum.ofNat (n : ℕ) : JSNum :=
  JSNum.finite (n : ℚ)

/-- The digit-collecting loop of the `CPF` constructor
(`src/unnamed/part_003`, lines 14–22).  The list elements are the values
`Math.trunc(value) % 10` already computed for each input (`none` = `NaN`):
`if (Number.isNaN(digit) || digit < 0 || digit > 9) continue;` skips the
element, otherwise the digit is pushed and the loop breaks once 11 digits
are held. -/
def collectDigits : List (Option ℤ) → List ℕ → List ℕ
  | [], acc => acc
  | none :: rest, acc => collectDigits rest acc
  | some d :: rest, acc =>
    if d < 0 ∨ 9 < d then
      collectDigits rest acc
    else
      let acc' := acc ++ [d.toNat]
      if acc'.length = 11 then acc' else collectDigits rest acc'

/-- The `CPF` value object: its private field `#digits`.  The cached
`#hashCode` field is pure memoization of `hashSequence(#digits, seed)` and is
not part of the observable state. -/
structure CPF where
  digits : List ℕ
deriving DecidableEq

/-- `CPF.Nil`, the canonical empty instance. -/
def CPF.nil : CPF := ⟨[]⟩

/-- The `CPF` constructor on a (finite) iterable of numbers.  Returning
`CPF.Nil` when no digit was collected is value-level the same as returning
the freshly built empty instance, since a `CPF` is determined by its
digits. -/
def cpfCons (numbers : List JSNum) : CPF :=
  ⟨collectDigits (numbers.map JSNum.truncMod10) []⟩

/-- The negative-index-from-end normalization shared by
`Array.prototype.at` and `Array.prototype.with`: a negative index counts
back from the end of the array. -/
def normIdx (len : ℕ) (index : ℤ) : ℤ :=
  if index < 0 then index + len else index

/-- `Array.prototype.at`: normalized out-of-range indices give `undefined`
(`none`). -/
def jsAt (l : List ℕ) (index : ℤ) : Option ℕ :=
  let k := normIdx l.length index
  if h : 0 ≤ k ∧ k < l.length then some (l.get ⟨k.toNat, by omega⟩) else none

/-- `CPF.prototype.at` (lines 44–46). -/
def cpfAt (c : CPF) (index : ℤ) : Option ℕ :=
  jsAt c.digits index

/-- `Array.prototype.with` index normalization: same negative-index rule,
but an out-of-range normalized index throws a `RangeError` (`none`). -/
def jsArrayWith (l : List (Option ℤ)) (index : ℤ) (x : Option ℤ) :
    Option (List (Option ℤ)) :=
  let k := normIdx l.length index
  if 0 ≤ k ∧ k < l.length then some (l.set k.toNat x) else none

/-- `CPF.prototype.with` (lines 54–60).  `current` is
`Math.trunc(digit) % 10` (`none` = `NaN`); it is compared to
`this.#digits.at(index)` with `===` (`NaN === x` and `undefined === n` are
false), and on inequality `this.#digits.with(index, current)` is rebuilt
through the constructor, which re-applies `trunc` and `% 10` to each element
(the identity on the stored digits) and filters the inserted value.
`none` is a thrown `RangeError`. -/
def cpfWith (c : CPF) (index : ℤ) (value : JSNum) : Option CPF :=
  let current : Option ℤ := value.truncMod10
  let previous : Option ℕ := jsAt c.digits index
  let same : Bool :=
    match current, previous with
    | some d, some p => d = (p : ℤ)
    | _, _ => false
  if same then some c
  else
    (jsArrayWith (c.digits.map (fun n => some (Int.ofNat n))) index current).map
      (fun arr => ⟨collectDigits (arr.map (Option.map (fun e => e.tmod 10))) []⟩)

/-- The element-wise digit comparison in `CPF.prototype.equals`:
`this.#digits.every((digit, index) => other.#digits[index] === digit)`. -/
def everyIndexEq (a b : List ℕ) : Bool :=
  (List.range a.length).all (fun i => b.get? i == a.get? i)

/-- `CPF.prototype.equals` (lines 66–75) on two `CPF` instances, for an
arbitrary deterministic hash function (the external `cruxhash`
`hashSequence` with the fixed seed is one such function; `hashCode()`
memoizes it).  The reference-identity fast path `this === other` is
absorbed: when the two sides are the same instance every remaining
conjunct is true, so the value is unchanged. -/
def cpfEquals (hash : List ℕ → ℕ) (a b : CPF) : Bool :=
  hash a.digits == hash b.digits &&
  a.digits.length == b.digits.length &&
  everyIndexEq a.digits b.digits

/-- The summing loop of `CPF.getCheckDigit` (lines 193–204):
`for (let index = start; index < end; index = index + 1)`
`acc = acc + digits[index] * (end + 1 - index)`, rendered as a fold over
the list of loop indices (`start`, `start+1`, …, `end−1`; empty when
`end ≤ start`, as the loop then runs zero times). -/
def checkDigitAux (digits : List ℕ) (endIdx : ℕ) (indices : List ℕ)
    (acc : ℕ) : ℕ :=
  indices.foldl
    (fun acc index => acc + digits.getD index 0 * (endIdx + 1 - index)) acc

/-- `CPF.getCheckDigit(digits, start, end)` (lines 193–204). -/
def getCheckDigit (digits : List ℕ) (start endIdx : ℕ) : ℕ :=
  let acc := checkDigitAux digits endIdx (List.range' start (endIdx - start)) 0
  let rem := acc % 11
  if rem < 2 then 0 else 11 - rem

/-- The structured result of `CPF.prototype.getValidity`. -/
structure CPFValidityStateFlags where
  valueMissing : Bool
  tooShort : Bool
  typeMismatch : Bool
deriving DecidableEq

/-- `CPF.prototype.getValidity` (lines 89–101). -/
def getValidity (c : CPF) : CPFValidityStateFlags :=
  let len := c.digits.length
  { valueMissing := len == 0
    tooShort := decide (0 < len) && decide (len < 11)
    typeMismatch :=
      len == 11 &&
        (c.digits.all (fun d => d == c.digits.getD 0 0) ||
          getCheckDigit c.digits 0 9 != c.digits.getD 9 0 ||
          getCheckDigit c.digits 0 10 != c.digits.getD 10 0) }

/-- `CPF.prototype.checkValidity` (lines 110–113). -/
def checkValidity (c : CPF) : Bool :=
  let v := getValidity c
  !(v.valueMissing || v.tooShort || v.typeMismatch)

/-- `CPF.prototype.toJSON` (lines 139–141): the digits joined with no
separator; each stored digit is a single decimal character. -/
def cpfToJSON (c : CPF) : List Char :=
  c.digits.map Nat.digitChar

/-- `CPF.from` (lines 171–177) with the Unicode NFD normalization step
(`String.prototype.normalize`, a host capability outside this repository)
abstracted as an arbitrary function `norm` on strings.  `\D` strips every
character outside ASCII `0`–`9`; the first 11 remaining characters are
parsed with `Number.parseInt(c, 10) % 10` and fed to the constructor. -/
def cpfFrom (norm : List Char → List Char) (formatted : List Char) : CPF :=
  let stripped := (norm formatted).filter Char.isDigit
  if stripped.isEmpty then CPF.nil
  else cpfCons ((stripped.take 11).map
    (fun ch => JSNum.ofNat ((ch.toNat - 48) % 10)))

/-- `CPF.create` (lines 182–188) as a function of the outcomes of the nine
`Math.trunc(Math.random() * 10)` draws: push the check digit of the nine,
then the check digit of the resulting ten, and build the instance. -/
def createFrom (ds : List ℕ) : CPF :=
  let a := ds ++ [getCheckDigit ds 0 ds.length]
  let b := a ++ [getCheckDigit a 0 a.length]
  cpfCons (b.map JSNum.ofNat)

/-- Well-formedness of an instance: at most 11 digits, each in `[0, 9]`.
Every reachable instance satisfies it. -/
def CPF.Wf (c : CPF) : Prop :=
  c.digits.length ≤ 11 ∧ ∀ d ∈ c.digits, d ≤ 9

instance : DecidablePred CPF.Wf := fun c => by
  unfold CPF.Wf; infer_instance

/-! ## Characterization of the constructor loop -/

/-- The digit kept by one constructor iteration from a computed
`Math.trunc(value) % 10` candidate, if any: the loop skips `NaN` and every
value outside `[0, 9]`. -/
def digOf : Option ℤ → Option ℕ
  | none => none
  | some d => if d < 0 ∨ 9 < d then none else some d.toNat

/-- The digit contributed to the constructor by one raw input value, if
any. -/
def jsDigit? (v : JSNum) : Option ℕ :=
  digOf v.truncMod10

theorem collectDigits_eq (cs : List (Option ℤ)) :
    ∀ acc : List ℕ, acc.length < 11 →
      collectDigits cs acc = (acc ++ cs.filterMap digOf).take 11 := by
  induction cs with
  | nil =>
    intro acc hacc
    simp [collectDigits, List.take_of_length_le (Nat.le_of_lt hacc)]
  | cons c rest ih =>
    intro acc hacc
    match c with
    | none => simpa [collectDigits, digOf] using ih acc hacc
    | some d =>
      by_cases hd : d < 0 ∨ 9 < d
      · simpa [collectDigits, digOf, hd] using ih acc hacc
      · simp only [collectDigits, digOf, hd, if_false, List.filterMap_cons]
        by_cases hlen : (acc ++ [d.toNat]).length = 11
        · rw [if_pos hlen]
          rw [show acc ++ d.toNat :: rest.filterMap digOf
                = (acc ++ [d.toNat]) ++ rest.filterMap digOf by simp]
          rw [← hlen, List.take_left]
        · rw [if_neg hlen]
          rw [ih (acc ++ [d.toNat]) (by simp at hlen ⊢; omega)]
          simp

theorem cpfCons_digits (numbers : List JSNum) :
    (cpfCons numbers).digits = (numbers.filterMap jsDigit?).take 11 := by
  unfold cpfCons
  rw [collectDigits_eq _ [] (by simp)]
  rw [List.filterMap_map]
  rfl

theorem cpfCons_nil_iff (numbers : List JSNum) :
    cpfCons numbers = CPF.nil ↔ numbers.filterMap jsDigit? = [] := by
  constructor
  · intro h
    have h' : (cpfCons numbers).digits = [] := by rw [h]; rfl
    rw [cpfCons_digits] at h'
    cases hfm : numbers.filterMap jsDigit? with
    | nil => rfl
    | cons a l =>
      exfalso
      rw [hfm] at h'
      have hlen := congrArg List.length h'
      simp [List.length_take] at hlen
  · intro h
    have hd : (cpfCons numbers).digits = [] := by rw [cpfCons_digits, h]; rfl
    have he : cpfCons numbers = CPF.mk (cpfCons numbers).digits := rfl
    rw [he, hd]
    rfl

/-! ## Digits already in range pass through the constructor unchanged -/

theorem ratTrunc_intCast (n : ℤ) : ratTrunc (n : ℚ) = n := by
  unfold ratTrunc
  rw [Rat.num_intCast, Rat.den_intCast]
  simp [Int.tdiv_one]

theorem ratTrunc_natCast (n : ℕ) : ratTrunc (n : ℚ) = n := by
  have h : ((n : ℤ) : ℚ) = (n : ℚ) := by push_cast; rfl
  rw [← h, ratTrunc_intCast]

theorem truncMod10_ofNat (n : ℕ) :
    (JSNum.ofNat n).truncMod10 = some ((n : ℤ).tmod 10) := by
  simp [JSNum.ofNat, JSNum.truncMod10, ratTrunc_natCast]

theorem tmod_ten_of_le_nine {n : ℕ} (h : n ≤ 9) : ((n : ℤ)).tmod 10 = n :=
  Int.tmod_eq_of_lt (by omega) (by omega)

theorem jsDigit?_ofNat {n : ℕ} (h : n ≤ 9) :
    jsDigit? (JSNum.ofNat n) = some n := by
  rw [jsDigit?, truncMod10_ofNat, tmod_ten_of_le_nine h]
  simp [digOf]
  omega

theorem filterMap_jsDigit?_ofNat (l : List ℕ) (h : ∀ d ∈ l, d ≤ 9) :
    (l.map JSNum.ofNat).filterMap jsDigit? = l := by
  induction l with
  | nil => rfl
  | cons a t ih =>
    rw [List.map_cons, List.filterMap_cons,
      jsDigit?_ofNat (h a (by simp)), ih (fun d hd => h d (by simp [hd]))]

theorem cpfCons_of_digits (l : List ℕ) (h : ∀ d ∈ l, d ≤ 9) :
    (cpfCons (l.map JSNum.ofNat)).digits = l.take 11 := by
  rw [cpfCons_digits, filterMap_jsDigit?_ofNat l h]

/-! ## C1: construction -/

/-- Follows the claim's words, for comparison with the source constructor:
every finite input is coerced into a digit 0–9 via `trunc(x) % 10` (to land
in 0–9 the modulo must be the mathematical, nonnegative one), non-finite
inputs are skipped, and 11 digits at most are collected. -/
def specCoerceDigits (xs : List JSNum) : List ℕ :=
  (xs.filterMap (fun v =>
    match v with
    | JSNum.finite q => some ((ratTrunc q).emod 10).toNat
    | _ => none)).take 11

/-- C1, counterexample: on the single input `-7` the constructor produces
no digit at all (the loop skips `trunc(-7) % 10 = -7` because it is
negative), while the claim coerces `-7` into one digit 0–9; the claimed
digit count 1 is wrong. -/
theorem c1_counterexample :
    (cpfCons [JSNum.ofInt (-7)]).digits = [] ∧
    specCoerceDigits [JSNum.ofInt (-7)] = [3] := by
  decide

/-- C1, amended: scanning the inputs in order, each finite value whose
`trunc(x) % 10` (JavaScript sign-preserving remainder) lies in `[0, 9]` —
that is, every nonnegative finite value, plus the negative ones whose
truncation is a multiple of ten or zero — contributes exactly that digit;
every other value (negative finite values with a negative remainder, and
the non-finite NaN and infinities) is skipped entirely and consumes no
slot; collection stops once 11 digits are held; and an input yielding zero
digits produces the canonical nil instance. -/
theorem c1_collects_filtered_digits (xs : List JSNum) :
    (cpfCons xs).digits = (xs.filterMap jsDigit?).take 11 ∧
    (cpfCons xs = CPF.nil ↔ xs.filterMap jsDigit? = []) :=
  ⟨cpfCons_digits xs, cpfCons_nil_iff xs⟩

/-! ## C3: the check-digit algorithm -/

theorem checkDigitAux_eq_sum (D : List ℕ) (e : ℕ) :
    ∀ (n s a : ℕ), checkDigitAux D e (List.range' s n) a
      = a + ∑ j in Finset.Ico s (s + n), D.getD j 0 * (e + 1 - j) := by
  intro n
  induction n with
  | zero =>
    intro s a
    simp [checkDigitAux]
  | succ n ih =>
    intro s a
    rw [List.range'_succ]
    rw [show checkDigitAux D e (s :: List.range' (s + 1) n) a
        = checkDigitAux D e (List.range' (s + 1) n)
            (a + D.getD s 0 * (e + 1 - s)) from rfl]
    rw [ih (s + 1) _]
    rw [Finset.sum_eq_sum_Ico_succ_bot (show s < s + (n + 1) by omega)]
    rw [show s + 1 + n = s + (n + 1) by omega]
    ring

/-- C3: `getCheckDigit(D, start, end)` is the weighted sum
`Σ D[i]·(end + 1 − i)` over `[start, end)` reduced modulo 11, mapped to 0
when the remainder is below 2 and to `11 − rem` otherwise. -/
theorem c3_check_digit_is_weighted_sum (D : List ℕ) (s e : ℕ)
    (hse : s ≤ e) (he : e ≤ D.length) :
    getCheckDigit D s e =
      if (∑ j in Finset.Ico s e, D.getD j 0 * (e + 1 - j)) % 11 < 2 then 0
      else 11 - (∑ j in Finset.Ico s e, D.getD j 0 * (e + 1 - j)) % 11 := by
  unfold getCheckDigit
  rw [checkDigitAux_eq_sum D e (e - s) s 0, Nat.zero_add,
    show s + (e - s) = e by omega]

/-- C3, witness: the standard test digits at range `[0, 9)`. -/
theorem c3_check_digit_is_weighted_sum_witness :
    getCheckDigit [3, 1, 6, 7, 5, 7, 4, 5, 5] 0 9 =
      if (∑ j in Finset.Ico 0 9,
            [3, 1, 6, 7, 5, 7, 4, 5, 5].getD j 0 * (9 + 1 - j)) % 11 < 2 then 0
      else 11 - (∑ j in Finset.Ico 0 9,
            [3, 1, 6, 7, 5, 7, 4, 5, 5].getD j 0 * (9 + 1 - j)) % 11 :=
  c3_check_digit_is_weighted_sum [3, 1, 6, 7, 5, 7, 4, 5, 5] 0 9
    (by decide) (by decide)

/-! ## C4: the validity flags -/

/-- C4: `valueMissing` holds exactly on zero digits, `tooShort` exactly on
1–10 digits, `typeMismatch` exactly on 11 digits that are all identical or
fail one of the two check digits, and `checkValidity()` is true exactly
when all three flags are false. -/
theorem c4_validity_flags (c : CPF) :
    ((getValidity c).valueMissing = true ↔ c.digits.length = 0) ∧
    ((getValidity c).tooShort = true ↔
      1 ≤ c.digits.length ∧ c.digits.length ≤ 10) ∧
    ((getValidity c).typeMismatch = true ↔
      c.digits.length = 11 ∧
        ((∀ d ∈ c.digits, d = c.digits.getD 0 0) ∨
          getCheckDigit c.digits 0 9 ≠ c.digits.getD 9 0 ∨
          getCheckDigit c.digits 0 10 ≠ c.digits.getD 10 0)) ∧
    (checkValidity c = true ↔
      (getValidity c).valueMissing = false ∧
        (getValidity c).tooShort = false ∧
        (getValidity c).typeMismatch = false) := by
  refine ⟨?_, ?_, ?_, ?_⟩
  · simp [getValidity]
  · simp [getValidity]; omega
  · simp [getValidity, List.all_eq_true]
    tauto
  · simp only [checkValidity, Bool.not_eq_true', Bool.or_eq_false_iff]
    tauto

/-! ## C9: structural equality -/

theorem everyIndexEq_refl (a : List ℕ) : everyIndexEq a a = true := by
  simp [everyIndexEq]

theorem cpfEquals_iff_digits (hash : List ℕ → ℕ) (a b : CPF) :
    cpfEquals hash a b = true ↔ a.digits = b.digits := by
  constructor
  · intro h
    simp only [cpfEquals, Bool.and_eq_true, beq_iff_eq] at h
    obtain ⟨⟨-, hlen⟩, hevery⟩ := h
    simp only [everyIndexEq, List.all_eq_true, List.mem_range, beq_iff_eq] at hevery
    refine List.ext_get? (fun i => ?_)
    by_cases hi : i < a.digits.length
    · exact (hevery i hi).symm
    · rw [List.get?_eq_none.mpr (by omega), List.get?_eq_none.mpr (by omega)]
  · intro h
    simp [cpfEquals, h, everyIndexEq_refl]

/-- C9: `equals` is true exactly on equal digit count plus digit-for-digit
agreement (for any deterministic hash function, in particular the seeded
`cruxhash` sequence hash the class uses); it is reflexive; and the instance
constructed from zero digits equals the canonical nil instance. -/
theorem c9_equals_is_digit_equality (hash : List ℕ → ℕ) (a b : CPF) :
    (cpfEquals hash a b = true ↔
      (a.digits.length = b.digits.length ∧
        ∀ i, a.digits.get? i = b.digits.get? i)) ∧
    cpfEquals hash a a = true ∧
    cpfEquals hash (cpfCons []) CPF.nil = true := by
  refine ⟨?_, ?_, ?_⟩
  · rw [cpfEquals_iff_digits]
    constructor
    · intro h
      rw [h]
      exact ⟨rfl, fun _ => rfl⟩
    · intro ⟨_, h⟩
      exact List.ext_get? h
  · rw [cpfEquals_iff_digits]
  · rw [cpfEquals_iff_digits]
    rfl

/-! ## C10: invariants of reachable instances -/

theorem digOf_le_nine {o : Option ℤ} {n : ℕ} (h : digOf o = some n) : n ≤ 9 := by
  match o with
  | none => simp [digOf] at h
  | some d =>
    simp only [digOf] at h
    split at h
    · simp at h
    · rename_i hd
      simp only [Option.some.injEq] at h
      omega

theorem Wf_collect (cs : List (Option ℤ)) : CPF.Wf ⟨collectDigits cs []⟩ := by
  rw [CPF.Wf, collectDigits_eq cs [] (by simp), List.nil_append]
  constructor
  · simp [List.length_take]
  · intro d hd
    have hd' := List.mem_of_mem_take hd
    obtain ⟨o, -, ho⟩ := List.mem_filterMap.mp hd'
    exact digOf_le_nine ho

theorem Wf_cpfCons (xs : List JSNum) : (cpfCons xs).Wf :=
  Wf_collect _

theorem Wf_nil : CPF.nil.Wf := by
  constructor <;> simp [CPF.nil]

theorem Wf_cpfFrom (norm : List Char → List Char) (s : List Char) :
    (cpfFrom norm s).Wf := by
  simp only [cpfFrom]
  split
  · exact Wf_nil
  · exact Wf_cpfCons _

theorem Wf_createFrom (ds : List ℕ) : (createFrom ds).Wf :=
  Wf_cpfCons _

theorem Wf_cpfWith {c : CPF} {i : ℤ} {v : JSNum} {c' : CPF}
    (hwf : c.Wf) (h : cpfWith c i v = some c') : c'.Wf := by
  simp only [cpfWith] at h
  split at h
  · cases h
    exact hwf
  · obtain ⟨arr, -, harr⟩ := Option.map_eq_some'.mp h
    rw [← harr]
    exact Wf_collect _

/-- C10: every instance produced by the constructor, by parsing, by random
generation, or by replace-digit holds at most 11 digits, each in `[0, 9]`;
and for every instance at most one of the three validity flags is true. -/
theorem c10_reachable_invariants :
    (∀ xs : List JSNum, (cpfCons xs).Wf) ∧
    (∀ (norm : List Char → List Char) (s : List Char), (cpfFrom norm s).Wf) ∧
    (∀ ds : List ℕ, (createFrom ds).Wf) ∧
    (∀ (c : CPF) (i : ℤ) (v : JSNum) (c' : CPF),
      c.Wf → cpfWith c i v = some c' → c'.Wf) ∧
    (∀ c : CPF,
      ((getValidity c).valueMissing && (getValidity c).tooShort) = false ∧
      ((getValidity c).valueMissing && (getValidity c).typeMismatch) = false ∧
      ((getValidity c).tooShort && (getValidity c).typeMismatch) = false) := by
  refine ⟨Wf_cpfCons, Wf_cpfFrom, Wf_createFrom,
    fun _ _ _ _ hwf h => Wf_cpfWith hwf h, fun c => ?_⟩
  refine ⟨?_, ?_, ?_⟩
  · by_cases h : c.digits.length = 0 <;> simp [getValidity, h]
  · by_cases h : c.digits.length = 0 <;> simp [getValidity, h]
  · by_cases h : c.digits.length = 11 <;> simp [getValidity, h]

/-- C10, witness: the fourth conjunct applied at a concrete replace. -/
theorem c10_reachable_invariants_witness :
    (CPF.mk [7, 2]).Wf :=
  c10_reachable_invariants.2.2.2.1
    (cpfCons [JSNum.ofNat 1, JSNum.ofNat 2]) 0 (JSNum.ofNat 7) (CPF.mk [7, 2])
    (by decide) (by decide)

/-! ## C7: out-of-range behaviour of `with` and `at` -/

theorem jsAt_eq_none_iff (l : List ℕ) (i : ℤ) :
    jsAt l i = none ↔
      ¬ (0 ≤ normIdx l.length i ∧ normIdx l.length i < (l.length : ℤ)) := by
  unfold jsAt
  by_cases h : 0 ≤ normIdx l.length i ∧ normIdx l.length i < (l.length : ℤ) <;>
    simp [h]

theorem jsAt_some_inRange {l : List ℕ} {i : ℤ} {p : ℕ} (h : jsAt l i = some p) :
    0 ≤ normIdx l.length i ∧ normIdx l.length i < (l.length : ℤ) := by
  by_contra hc
  rw [(jsAt_eq_none_iff l i).mpr hc] at h
  cases h

theorem jsArrayWith_eq_none_iff (l : List (Option ℤ)) (i : ℤ) (x : Option ℤ) :
    jsArrayWith l i x = none ↔
      ¬ (0 ≤ normIdx l.length i ∧ normIdx l.length i < (l.length : ℤ)) := by
  unfold jsArrayWith
  by_cases h : 0 ≤ normIdx l.length i ∧ normIdx l.length i < (l.length : ℤ) <;>
    simp [h]

/-- C7: the replace-digit operation throws a `RangeError` (modelled as
`none`) exactly when the index, after negative-index-from-end
normalization, is outside `[0, digit count)`; the read operation `at` is
total and answers `undefined` (`none`) exactly on the same out-of-range
indices. -/
theorem c7_range_error_iff_out_of_bounds (c : CPF) (i : ℤ) (v : JSNum) :
    (cpfWith c i v = none ↔
      ¬ (0 ≤ normIdx c.digits.length i ∧
          normIdx c.digits.length i < (c.digits.length : ℤ))) ∧
    (cpfAt c i = none ↔
      ¬ (0 ≤ normIdx c.digits.length i ∧
          normIdx c.digits.length i < (c.digits.length : ℤ))) := by
  refine ⟨?_, jsAt_eq_none_iff c.digits i⟩
  simp only [cpfWith]
  split
  · rename_i hsame
    cases hat : jsAt c.digits i with
    | none =>
      rw [hat] at hsame
      exfalso
      cases v.truncMod10 <;> simp at hsame
    | some p =>
      have hin := jsAt_some_inRange hat
      simp [hin]
  · rw [Option.map_eq_none', jsArrayWith_eq_none_iff]
    simp

/-! ## C8: replace-digit -/

theorem filterMap_digOf_valid (l : List ℕ) (h : ∀ n ∈ l, n ≤ 9) :
    (l.map (fun n => some (Int.ofNat n))).filterMap digOf = l := by
  induction l with
  | nil => rfl
  | cons a t ih =>
    have ha : a ≤ 9 := h a (by simp)
    rw [List.map_cons, List.filterMap_cons]
    have : digOf (some (Int.ofNat a)) = some a := by
      simp only [digOf, Int.ofNat_eq_natCast]
      rw [if_neg (by omega)]
      simp
    rw [this, ih (fun n hn => h n (by simp [hn]))]

theorem collect_set (l : List ℕ) (hl : ∀ n ∈ l, n ≤ 9) (hlen : l.length ≤ 11)
    (k : ℕ) (d : ℤ) (hd0 : 0 ≤ d) (hd9 : d ≤ 9) :
    collectDigits
      (((l.map (fun n => some (Int.ofNat n))).set k (some d)).map
        (Option.map (fun e => e.tmod 10))) [] = l.set k d.toNat := by
  have hmap :
      ((l.map (fun n => some (Int.ofNat n))).set k (some d)).map
          (Option.map (fun e => e.tmod 10))
        = ((l.set k d.toNat).map (fun n => some (Int.ofNat n))) := by
    rw [List.map_set, List.map_map]
    have h1 : l.map ((Option.map (fun e => Int.tmod e 10)) ∘
        (fun n => some (Int.ofNat n))) = l.map (fun n => some (Int.ofNat n)) := by
      refine List.map_congr_left (fun n hn => ?_)
      simp only [Function.comp, Option.map_some']
      rw [show (Int.ofNat n) = ((n : ℕ) : ℤ) from rfl,
        tmod_ten_of_le_nine (hl n hn)]
    have h2 : Option.map (fun e => Int.tmod e 10) (some d) = some d := by
      rw [Option.map_some', Int.tmod_eq_of_lt hd0 (by omega)]
    have h3 : (l.set k d.toNat).map (fun n => some (Int.ofNat n))
        = (l.map (fun n => some (Int.ofNat n))).set k (some (Int.ofNat d.toNat)) :=
      List.map_set ..
    rw [h1, h2, h3,
      show Int.ofNat d.toNat = d by rw [Int.ofNat_eq_natCast]; omega]
  rw [hmap, collectDigits_eq _ [] (by simp), List.nil_append,
    filterMap_digOf_valid _ (fun n hn => ?_),
    List.take_of_length_le (by simp [List.length_set]; omega)]
  rcases List.mem_or_eq_of_mem_set hn with h | h
  · exact hl n h
  · omega

/-- C8, counterexample: on the three-digit instance built from `[1, 2, 3]`,
replacing at in-range index 0 with the numeric value `-7`
(`trunc(-7) % 10 = -7`, unequal to the current digit 1) yields an instance
with only the two digits `[2, 3]`: the constructor rebuild filters the
negative inserted value out, so the digit count shrinks from 3 to 2
instead of staying unchanged with digit `trunc(-7) % 10` at index 0. -/
theorem c8_counterexample :
    (cpfCons [JSNum.ofNat 1, JSNum.ofNat 2, JSNum.ofNat 3]).digits = [1, 2, 3] ∧
    (cpfWith (cpfCons [JSNum.ofNat 1, JSNum.ofNat 2, JSNum.ofNat 3]) 0
        (JSNum.ofInt (-7))).map CPF.digits = some [2, 3] := by
  decide

/-- C8, amended: for every well-formed instance, in-range index (after
negative-index normalization) and numeric replacement value whose
`trunc(v) % 10` is a digit in `[0, 9]` — the claim as stated, restricted to
replacement values that normalize into a valid digit — `with` returns the
same instance when that digit equals the current one, and otherwise an
instance of unchanged digit count with exactly that position replaced.
(For values whose `trunc(v) % 10` is negative or `NaN` the rebuild drops
the position instead, shrinking the count: see the counterexample.) -/
theorem c8_replace_digit (c : CPF) (i : ℤ) (v : JSNum) (d : ℤ)
    (hwf : c.Wf) (hv : v.truncMod10 = some d) (hd0 : 0 ≤ d) (hd9 : d ≤ 9)
    (hin : 0 ≤ normIdx c.digits.length i ∧
      normIdx c.digits.length i < (c.digits.length : ℤ)) :
    (c.digits.get? (normIdx c.digits.length i).toNat = some d.toNat →
      cpfWith c i v = some c) ∧
    (c.digits.get? (normIdx c.digits.length i).toNat ≠ some d.toNat →
      cpfWith c i v =
        some ⟨c.digits.set (normIdx c.digits.length i).toNat d.toNat⟩ ∧
      (c.digits.set (normIdx c.digits.length i).toNat d.toNat).length
        = c.digits.length ∧
      (c.digits.set (normIdx c.digits.length i).toNat d.toNat).get?
          (normIdx c.digits.length i).toNat = some d.toNat ∧
      ∀ j : ℕ, j ≠ (normIdx c.digits.length i).toNat →
        (c.digits.set (normIdx c.digits.length i).toNat d.toNat).get? j
          = c.digits.get? j) := by
  have hk : (normIdx c.digits.length i).toNat < c.digits.length := by omega
  have hat : jsAt c.digits i
      = some (c.digits.get ⟨(normIdx c.digits.length i).toNat, hk⟩) := by
    unfold jsAt
    rw [dif_pos hin]
  have hget : c.digits.get? (normIdx c.digits.length i).toNat
      = some (c.digits.get ⟨(normIdx c.digits.length i).toNat, hk⟩) :=
    List.get?_eq_get hk
  constructor
  · intro h1
    have hpd : c.digits.get ⟨(normIdx c.digits.length i).toNat, hk⟩ = d.toNat := by
      rw [hget] at h1
      exact Option.some.inj h1
    simp only [cpfWith, hv, hat, hpd, Int.toNat_of_nonneg hd0]
    simp
  · intro h1
    have hpd : ((c.digits.get ⟨(normIdx c.digits.length i).toNat, hk⟩ : ℕ) : ℤ)
        ≠ d := by
      intro he
      apply h1
      rw [hget, ← he]
      simp
    have harrW : jsArrayWith (c.digits.map (fun n => some (Int.ofNat n))) i (some d)
        = some ((c.digits.map (fun n => some (Int.ofNat n))).set
            (normIdx c.digits.length i).toNat (some d)) := by
      unfold jsArrayWith
      simp only [List.length_map]
      rw [if_pos hin]
    have hcol := collect_set c.digits hwf.2 hwf.1
      (normIdx c.digits.length i).toNat d hd0 hd9
    refine ⟨?_, ?_, ?_, ?_⟩
    · simp only [cpfWith, hv, hat]
      rw [if_neg (by
        simp only [List.get_eq_getElem] at hpd
        simp [Ne.symm hpd]), harrW, Option.map_some', hcol]
    · exact List.length_set ..
    · exact List.get?_set_eq_of_lt _ hk
    · intro j hj
      exact List.get?_set_ne _ _ (Ne.symm hj)

/-- C8, witness: replacing the first digit of the instance `[1, 2]` with 7
gives `[7, 2]`; replacing it with its current value 1 gives the instance
itself. -/
theorem c8_replace_digit_witness :
    cpfWith (cpfCons [JSNum.ofNat 1, JSNum.ofNat 2]) 0 (JSNum.ofNat 7)
      = some ⟨[7, 2]⟩ ∧
    cpfWith (cpfCons [JSNum.ofNat 1, JSNum.ofNat 2]) 0 (JSNum.ofNat 1)
      = some (cpfCons [JSNum.ofNat 1, JSNum.ofNat 2]) := by
  constructor
  · exact ((c8_replace_digit (cpfCons [JSNum.ofNat 1, JSNum.ofNat 2]) 0
      (JSNum.ofNat 7) 7 (by decide) (by decide) (by decide) (by decide)
      (by decide)).2 (by decide)).1
  · exact (c8_replace_digit (cpfCons [JSNum.ofNat 1, JSNum.ofNat 2]) 0
      (JSNum.ofNat 1) 1 (by decide) (by decide) (by decide) (by decide)
      (by decide)).1 (by decide)

/-! ## C6: parsing from text -/

theorem CPF.ext_digits {a b : CPF} (h : a.digits = b.digits) : a = b := by
  cases a
  cases b
  cases h
  rfl

theorem CPF.eq_nil_iff (c : CPF) : c = CPF.nil ↔ c.digits = [] := by
  constructor
  · intro h
    rw [h]
    rfl
  · intro h
    exact CPF.ext_digits h

theorem cpfFrom_digits (norm : List Char → List Char) (s : List Char) :
    (cpfFrom norm s).digits
      = (((norm s).filter Char.isDigit).take 11).map
          (fun ch => (ch.toNat - 48) % 10) ∧
    (cpfFrom norm s = CPF.nil ↔ (norm s).filter Char.isDigit = []) := by
  by_cases h : ((norm s).filter Char.isDigit).isEmpty
  · rw [List.isEmpty_iff] at h
    constructor
    · simp [cpfFrom, h, CPF.nil]
    · simp [cpfFrom, h]
  · rw [List.isEmpty_iff] at h
    have hdig : (cpfFrom norm s).digits
        = (((norm s).filter Char.isDigit).take 11).map
            (fun ch => (ch.toNat - 48) % 10) := by
      simp only [cpfFrom, List.isEmpty_iff, if_neg h]
      rw [show ∀ l : List Char,
            l.map (fun ch => JSNum.ofNat ((ch.toNat - 48) % 10))
              = (l.map (fun ch => (ch.toNat - 48) % 10)).map JSNum.ofNat
          from fun l => by rw [List.map_map]; rfl]
      rw [cpfCons_of_digits _ (by
        intro d hd
        obtain ⟨ch, -, hch⟩ := List.mem_map.mp hd
        omega)]
      rw [List.take_of_length_le (by simp [List.length_take])]
    refine ⟨hdig, ?_⟩
    rw [CPF.eq_nil_iff, hdig]
    constructor
    · intro hmap
      cases hfil : (norm s).filter Char.isDigit with
      | nil => rfl
      | cons a t =>
        rw [hfil] at hmap
        simp at hmap
    · intro hfil
      exact absurd hfil h

/-- C6: parsing is total — for every normalization function and every
string it returns the instance whose digits are the decimal digit
characters of the normalized string in left-to-right order, truncated to
11; when the string holds no digit character at all (empty strings
included) the result is the canonical nil instance. -/
theorem c6_from_never_fails (norm : List Char → List Char) (s : List Char) :
    (cpfFrom norm s).digits
      = (((norm s).filter Char.isDigit).take 11).map
          (fun ch => (ch.toNat - 48) % 10) ∧
    (cpfFrom norm s = CPF.nil ↔ (norm s).filter Char.isDigit = []) :=
  cpfFrom_digits norm s

/-! ## C5: serialization round trip -/

theorem digitChar_isDigit {d : ℕ} (h : d ≤ 9) : (Nat.digitChar d).isDigit = true := by
  interval_cases d <;> decide

theorem toNat_digitChar {d : ℕ} (h : d ≤ 9) :
    ((Nat.digitChar d).toNat - 48) % 10 = d := by
  interval_cases d <;> decide

/-- C5: serializing the instance built from a digit sequence `D` of length
at most 11 with digits in `[0, 9]` and re-parsing the string (under any
normalization that fixes the pure-digit string, as Unicode NFD does) gives
back an equal instance with the same digit count. -/
theorem c5_serialize_roundtrip (norm : List Char → List Char) (D : List ℕ)
    (hlen : D.length ≤ 11) (hd : ∀ d ∈ D, d ≤ 9)
    (hnorm : norm (cpfToJSON (cpfCons (D.map JSNum.ofNat)))
      = cpfToJSON (cpfCons (D.map JSNum.ofNat))) :
    cpfFrom norm (cpfToJSON (cpfCons (D.map JSNum.ofNat)))
      = cpfCons (D.map JSNum.ofNat) ∧
    (cpfFrom norm (cpfToJSON (cpfCons (D.map JSNum.ofNat)))).digits.length
      = D.length := by
  have hD : (cpfCons (D.map JSNum.ofNat)).digits = D := by
    rw [cpfCons_of_digits D hd, List.take_of_length_le hlen]
  have hjson : cpfToJSON (cpfCons (D.map JSNum.ofNat)) = D.map Nat.digitChar := by
    rw [cpfToJSON, hD]
  have hfil : (D.map Nat.digitChar).filter Char.isDigit = D.map Nat.digitChar :=
    List.filter_eq_self.mpr (fun ch hch => by
      obtain ⟨d, hdD, hval⟩ := List.mem_map.mp hch
      rw [← hval]
      exact digitChar_isDigit (hd d hdD))
  have h6 := (cpfFrom_digits norm (cpfToJSON (cpfCons (D.map JSNum.ofNat)))).1
  rw [hnorm, hjson, hfil, List.take_of_length_le (by simp [hlen]),
    List.map_map] at h6
  have hid : (D.map ((fun ch => (ch.toNat - 48) % 10) ∘ Nat.digitChar)) = D := by
    rw [show D = D.map id from (List.map_id D).symm]
    rw [List.map_map]
    exact List.map_congr_left (fun d hdD => toNat_digitChar (hd d hdD))
  rw [hid] at h6
  rw [hjson]
  refine ⟨CPF.ext_digits (by rw [h6, hD]), by rw [h6]⟩

/-- C5, witness: the four-digit sequence `[3, 1, 6, 7]` round-trips under
the identity normalization. -/
theorem c5_serialize_roundtrip_witness :
    cpfFrom id (cpfToJSON (cpfCons ([3, 1, 6, 7].map JSNum.ofNat)))
      = cpfCons ([3, 1, 6, 7].map JSNum.ofNat) :=
  (c5_serialize_roundtrip id [3, 1, 6, 7] (by decide) (by decide) rfl).1

/-! ## C2: random generation -/

theorem getCheckDigit_le_nine (D : List ℕ) (s e : ℕ) : getCheckDigit D s e ≤ 9 := by
  simp only [getCheckDigit]
  have h11 : checkDigitAux D e (List.range' s (e - s)) 0 % 11 < 11 :=
    Nat.mod_lt _ (by norm_num)
  split <;> omega

theorem getCheckDigit_append (l t : List ℕ) (s e : ℕ) (he : e ≤ l.length) :
    getCheckDigit (l ++ t) s e = getCheckDigit l s e := by
  unfold getCheckDigit
  rw [checkDigitAux_eq_sum (l ++ t) e (e - s) s 0,
    checkDigitAux_eq_sum l e (e - s) s 0]
  have : ∀ j ∈ Finset.Ico s (s + (e - s)),
      (l ++ t).getD j 0 * (e + 1 - j) = l.getD j 0 * (e + 1 - j) := by
    intro j hj
    rw [List.getD_append l t 0 j (by
      have h1 := (Finset.mem_Ico.mp hj).1
      have h2 := (Finset.mem_Ico.mp hj).2
      omega)]
  rw [Finset.sum_congr rfl this]

theorem createFrom_digits (ds : List ℕ) (hds : ∀ d ∈ ds, d ≤ 9)
    (hlen : ds.length ≤ 9) :
    (createFrom ds).digits =
      (ds ++ [getCheckDigit ds 0 ds.length])
        ++ [getCheckDigit (ds ++ [getCheckDigit ds 0 ds.length]) 0
              (ds.length + 1)] := by
  unfold createFrom
  have hall : ∀ d ∈ (ds ++ [getCheckDigit ds 0 ds.length])
      ++ [getCheckDigit (ds ++ [getCheckDigit ds 0 ds.length]) 0
            (ds ++ [getCheckDigit ds 0 ds.length]).length], d ≤ 9 := by
    intro d hd
    rcases List.mem_append.mp hd with hd | hd
    · rcases List.mem_append.mp hd with hd | hd
      · exact hds d hd
      · rw [List.mem_singleton.mp hd]
        exact getCheckDigit_le_nine ..
    · rw [List.mem_singleton.mp hd]
      exact getCheckDigit_le_nine ..
  rw [cpfCons_of_digits _ hall,
    List.take_of_length_le (by simp; omega)]
  simp [List.length_append]

/-- C2, counterexample: the all-zero outcome of the nine random draws is a
possible outcome (nine digits, each in `[0, 9]`), yet the generated
instance `00000000000` fails `checkValidity()`: both check digits of a
repeated digit equal that digit, so the all-identical rejection fires. -/
theorem c2_counterexample :
    (List.replicate 9 0).length = 9 ∧
    (∀ d ∈ List.replicate 9 0, d ≤ 9) ∧
    checkValidity (createFrom (List.replicate 9 0)) = false := by
  decide

/-- C2, amended: `create()` yields an 11-digit, `checkValidity()`-valid
instance for every outcome of the nine uniformly-random digits in `[0, 9]`
that is not all-identical; for an all-identical outcome both appended
check digits repeat the same digit and the resulting all-identical
11-digit pattern is rejected by `checkValidity()` (the spec itself notes
the generator does not exclude this edge case). -/
theorem c2_create_valid_unless_all_identical (ds : List ℕ)
    (hlen : ds.length = 9) (hds : ∀ d ∈ ds, d ≤ 9)
    (hni : ¬ ∀ d ∈ ds, d = ds.getD 0 0) :
    (createFrom ds).digits.length = 11 ∧
    checkValidity (createFrom ds) = true := by
  have hdig := createFrom_digits ds hds (by omega)
  set c1 := getCheckDigit ds 0 ds.length with hc1
  set a := ds ++ [c1] with ha
  set c2v := getCheckDigit a 0 (ds.length + 1) with hc2
  set b := a ++ [c2v] with hbdef
  have halen : a.length = 10 := by simp [ha]; omega
  have hblen : b.length = 11 := by simp [hbdef, halen]
  have h9 : getCheckDigit b 0 9 = b.getD 9 0 := by
    have hl : getCheckDigit b 0 9 = getCheckDigit ds 0 9 := by
      rw [hbdef, ha, List.append_assoc]
      exact getCheckDigit_append ds ([c1] ++ [c2v]) 0 9 (by omega)
    have hr : b.getD 9 0 = c1 := by
      rw [hbdef, List.getD_append a [c2v] 0 9 (by omega), ha,
        List.getD_append_right ds [c1] 0 9 (by omega), hlen]
      rfl
    rw [hl, hr, hc1, hlen]
  have h10 : getCheckDigit b 0 10 = b.getD 10 0 := by
    have hl : getCheckDigit b 0 10 = getCheckDigit a 0 10 := by
      rw [hbdef]
      exact getCheckDigit_append a [c2v] 0 10 (by omega)
    have hr : b.getD 10 0 = c2v := by
      rw [hbdef, List.getD_append_right a [c2v] 0 10 (by omega), halen]
      rfl
    rw [hl, hr, hc2, hlen]
  have hallsame : b.all (fun d => d == b.getD 0 0) = false := by
    rw [Bool.eq_false_iff]
    intro htrue
    apply hni
    have hb0 : b.getD 0 0 = ds.getD 0 0 := by
      rw [hbdef, ha, List.append_assoc,
        List.getD_append ds ([c1] ++ [c2v]) 0 0 (by omega)]
    intro d hd
    have hdb : d ∈ b := by
      rw [hbdef, ha, List.append_assoc]
      exact List.mem_append_left _ hd
    have := List.all_eq_true.mp htrue d hdb
    rw [beq_iff_eq] at this
    rw [this, hb0]
  refine ⟨?_, ?_⟩
  · rw [hdig, hblen]
  · simp only [checkValidity, getValidity, hdig, hblen, h9, h10, hallsame]
    simp

/-- C2, witness: the nine digits `3 1 6 7 5 7 4 5 5` are not all identical
and generate a valid instance. -/
theorem c2_create_valid_unless_all_identical_witness :
    checkValidity (createFrom [3, 1, 6, 7, 5, 7, 4, 5, 5]) = true :=
  (c2_create_valid_unless_all_identical [3, 1, 6, 7, 5, 7, 4, 5, 5]
    (by decide) (by decide) (by decide)).2
